import Mathlib

/-!
Shallow embedding of picom's convolution-kernel generator
(`bin/compton-convgen.py`) and proofs about it.

Matrices are Python lists of lists of floats; here they are `List (List α)`
over a scalar type `α`.  The script's numeric computations are modelled two
ways: the exact model instantiates `α` with a field (`ℚ` or `ℝ`, with
`Real.pi`, `Real.exp` for `math.pi`, `math.e`), and a separate binary64
model (`F64` below) captures IEEE-754 double rounding where exactness of
floating-point results is itself at issue.

The script mutates matrices in place with row-major
`for i in range(height): for j in range(width):` loops; `mforij` embeds
that loop shape faithfully, threading the partially updated matrix through
every iteration, so that reads of already-overwritten cells are visible.
-/

namespace Convgen

/-- Errors surfaced by the script: `CGBadArg` is the script's own
exception class (carrying its message); `valueError` models Python's
built-in `ValueError` raised by `float(...)` on an unparsable literal;
`zeroDivisionError` models Python's `ZeroDivisionError` raised by
`1.0 / 0.0`. -/
inductive CGError where
  | CGBadArg : String → CGError
  | valueError : CGError
  | zeroDivisionError : CGError
  deriving DecidableEq, Repr

/-- A matrix: a list of rows. -/
abbrev Mat (α : Type) := List (List α)

variable {α : Type}

/-- Cell read `matrix[i][j]`.  Every read the script performs is in
bounds; out-of-bounds reads default to `0`. -/
def mget [Zero α] (m : Mat α) (i j : ℕ) : α :=
  (m.getD i []).getD j 0

/-- Cell write `matrix[i][j] = v`.  Every write the script performs is in
bounds; out-of-bounds writes are a no-op. -/
def mset (m : Mat α) (i j : ℕ) (v : α) : Mat α :=
  m.set i ((m.getD i []).set j v)

/-- `mbuild(width, height)`: "Build a NxN matrix filled with 0." —
`height` rows of `width` zeros. -/
def mbuild [Zero α] (width height : ℕ) : Mat α :=
  List.replicate height (List.replicate width 0)

/-- The script's ubiquitous in-place double loop
`for i in range(h): for j in range(w): matrix[i][j] = f(matrix, i, j)`,
visiting cells in row-major order.  `f` receives the CURRENT, partially
updated matrix, exactly like the Python code, so sequential-overwrite
effects are modelled and not assumed away. -/
def mforij (h w : ℕ) (f : Mat α → ℕ → ℕ → α) (m : Mat α) : Mat α :=
  (List.range h).foldl
    (fun acc i =>
      (List.range w).foldl (fun acc2 j => mset acc2 i j (f acc2 i j)) acc)
    m

/-- `mmirror4`: "Do a 4-way mirroring on a matrix from top-left corner."
For each cell, in place and in row-major order:
`x = min(i, height-1-i); y = min(j, width-1-j); matrix[i][j] = matrix[x][y]`.
The read `matrix[x][y]` sees the current (partially mirrored) matrix. -/
def mmirror4 [Zero α] (m : Mat α) : Mat α :=
  let width := (m.headD []).length
  let height := m.length
  mforij height width
    (fun acc i j => mget acc (min i (height - 1 - i)) (min j (width - 1 - j)))
    m

/-- `mnormalize`: "Scale a matrix according to the value in the center."
`factor = 1.0 / matrix[int(height/2)][int(width/2)]` (Python raises
`ZeroDivisionError` on a zero center, modelled by the explicit check);
if `1.0 == factor` the matrix is returned unchanged, otherwise every cell
is multiplied in place by `factor`. -/
def mnormalize [Field α] [DecidableEq α] (m : Mat α) : Except CGError (Mat α) :=
  let width := (m.headD []).length
  let height := m.length
  let c := mget m (height / 2) (width / 2)
  if c = 0 then .error .zeroDivisionError
  else
    let factor := 1 / c
    if factor = 1 then .ok m
    else .ok (mforij height width (fun acc i j => mget acc i j * factor) m)

/-- `gen_box`: "Build a box blur kernel." — a `height × width` matrix of
ones (`factors` is ignored). -/
def gen_box [Zero α] [One α] (width height : ℕ) (factors : String → Option α) :
    Mat α :=
  mforij height width (fun _ _ _ => 1) (mbuild width height)

/-- `_gen_invalid`: raise `CGBadArg("Unknown kernel type.")`. -/
def _gen_invalid (width height : ℕ) (factors : String → Option α) :
    Except CGError (Mat α) :=
  .error (.CGBadArg "Unknown kernel type.")

/-- The raw Gaussian synthesis loop inside `gen_gaussian`: over the
top-left quadrant `0 ≤ i,j ≤ size//2` write
`1.0 / (2*pi*sigma) * pow(e, -(diffx*diffx + diffy*diffy) / (2*sigma*sigma))`
with `diffx = i - size//2`, `diffy = j - size//2`, into a zero matrix;
all other cells are left as built. -/
noncomputable def gauss_raw (size : ℕ) (sigma : ℝ) : Mat ℝ :=
  mforij (size / 2 + 1) (size / 2 + 1)
    (fun _ i j =>
      let diffx : ℝ := (i : ℝ) - ((size / 2 : ℕ) : ℝ)
      let diffy : ℝ := (j : ℝ) - ((size / 2 : ℕ) : ℝ)
      1 / (2 * Real.pi * sigma) *
        Real.exp 1 ^ (-(diffx * diffx + diffy * diffy) / (2 * sigma * sigma)))
    (mbuild size size)

/-- `gen_gaussian`: "Build a Gaussian blur kernel."  Rejects
`width != height`; reads `sigma` from the factors with default
`0.84089642`; synthesizes the quadrant, then normalizes, then mirrors. -/
noncomputable def gen_gaussian (width height : ℕ)
    (factors : String → Option ℝ) : Except CGError (Mat ℝ) :=
  if width ≠ height then
    .error (.CGBadArg "Cannot build an uneven Gaussian blur kernel.")
  else do
    let sigma : ℝ := (factors "sigma").getD 0.84089642
    let result := gauss_raw width sigma
    let result ← mnormalize result
    return mmirror4 result

/-- `mdumpcompton`: "Dump a matrix in compton's format."  Emits the
header `"{width},{height},"`, then row-major each cell formatted
(`format(..., ".6f")`, abstracted as `fmt`) followed by `","`, skipping
the single cell with `int(height/2) == i and int(width/2) == j`, then a
final newline.  The result is the list of strings written to stdout. -/
def mdumpcompton [Zero α] (fmt : α → String) (m : Mat α) : List String :=
  let width := (m.headD []).length
  let height := m.length
  (toString width ++ "," ++ toString height ++ ",")
    :: ((List.range height).flatMap fun i =>
          (List.range width).flatMap fun j =>
            if height / 2 = i ∧ width / 2 = j then []
            else [fmt (mget m i j) ++ ","])
    ++ ["\n"]

/-- Python's `s.partition('=')`, reduced to the two components the script
uses: `(res[0], res[2])`.  When `'='` does not occur, `res[0]` is the
whole string and `res[2]` is empty. -/
def partitionEq : List Char → Option (List Char × List Char)
  | [] => none
  | c :: cs =>
      if c = '=' then some ([], cs)
      else (partitionEq cs).map fun p => (c :: p.1, p.2)

/-- See `partitionEq`. -/
def pypartition (s : String) : String × String :=
  match partitionEq s.data with
  | none => (s, "")
  | some (a, b) => (⟨a⟩, ⟨b⟩)

/-- `_args_readfactors`: "Parse the factor arguments."  Starting from an
empty dict, for each `s` in the list: `res = s.partition('=')`; empty
`res[0]` raises `CGBadArg("Factor has no key.")`; empty `res[2]` raises
`CGBadArg("Factor has no value.")`; then `factors[res[0]] = float(res[2])`
where `float` (modelled by the parameter `pf`) raises `ValueError` on an
unparsable literal.  Dicts are modelled as functions `String → Option α`;
assignment overwrites, so later occurrences of a key win. -/
def _args_readfactors_loop (pf : String → Option α) :
    (String → Option α) → List String → Except CGError (String → Option α)
  | factors, [] => .ok factors
  | factors, s :: rest =>
      let res := pypartition s
      if res.1 = "" then .error (.CGBadArg "Factor has no key.")
      else if res.2 = "" then .error (.CGBadArg "Factor has no value.")
      else
        match pf res.2 with
        | none => .error .valueError
        | some v =>
            _args_readfactors_loop pf
              (fun k => if k = res.1 then some v else factors k) rest

/-- See `_args_readfactors_loop`; the script starts its `for` loop from an
empty dict. -/
def _args_readfactors (pf : String → Option α) (lst : List String) :
    Except CGError (String → Option α) :=
  _args_readfactors_loop pf (fun _ => none) lst

/-- The value the parsed factor dict assigns to key `k`: the parsed value
of the last list element whose key part is `k`, if any. -/
def lastAssign (pf : String → Option α) : List String → String → Option α
  | [], _ => none
  | s :: t, k =>
      match lastAssign pf t k with
      | some v => some v
      | none =>
          if (pypartition s).1 = k then pf (pypartition s).2 else none

/-- A factor argument on which `_args_readfactors` raises: missing key,
missing `'='` or missing value (both leave `res[2]` empty), or a value
`float(...)` cannot parse. -/
def factorBad (pf : String → Option α) (s : String) : Prop :=
  (pypartition s).1 = "" ∨ (pypartition s).2 = "" ∨
    ((pf (pypartition s).2).isNone = true)

instance (pf : String → Option α) (s : String) : Decidable (factorBad pf s) := by
  unfold factorBad
  exact inferInstance

/-- `_main`, after argument parsing: `width` and optional `height` are the
parsed integers, `factor` the raw `-f` strings (`[]` when absent), `pf`
models `float` on factor values and `dumpCompton` the `--dump-compton`
flag.  `if not height: height = width` treats both an omitted height and
an explicit `0` as "use width".  Returns the dump flag together with the
matrix handed to the serializer (`mdumpcompton` / `mdump`, modelled
separately). -/
noncomputable def _main (ty : String) (width : ℤ) (heightArg : Option ℤ)
    (factor : List String) (pf : String → Option ℝ) (dumpCompton : Bool) :
    Except CGError (Bool × Mat ℝ) :=
  let height : ℤ :=
    match heightArg with
    | none => width
    | some hh => if hh = 0 then width else hh
  if ¬(width > 0 ∧ height > 0) then .error (.CGBadArg "Invalid width/height.")
  else do
    let factors ← _args_readfactors pf factor
    let gen :=
      if ty = "gaussian" then gen_gaussian
      else if ty = "box" then fun w h f => .ok (gen_box w h f)
      else _gen_invalid
    let matrix ← gen width.toNat height.toNat factors
    return (dumpCompton, matrix)

/-!
### A binary64 model

Python floats are IEEE-754 binary64.  `F64` represents a finite double as
a canonical pair `man * 2 ^ exp` (mantissa odd, or zero with exponent
zero), and `fmul` / `fdiv` implement exact multiplication/division
followed by rounding to 53 significant bits, round-to-nearest, ties to
even — the binary64 semantics in the normal range (overflow and
subnormals, which the kernel generator's values never reach, are not
modelled).  All arithmetic is on `ℕ`/`ℤ` so that statements evaluate by
kernel reduction.
-/

/-- A (finite, normal-range) binary64 value `man * 2 ^ exp` in canonical
form: `man` odd, or `man = 0 ∧ exp = 0`. -/
structure F64 where
  man : ℤ
  exp : ℤ
  deriving DecidableEq, Repr

instance : Zero F64 := ⟨⟨0, 0⟩⟩

instance : One F64 := ⟨⟨1, 0⟩⟩

/-- Bit length of a natural number below `2 ^ 256`. -/
def blen (n : ℕ) : ℕ :=
  (List.range 256).foldl (fun acc k => if 2 ^ k ≤ n then k + 1 else acc) 0

/-- Strip trailing zero bits from the mantissa (fuelled, structural). -/
def canonAux : ℕ → ℤ → ℤ → F64
  | 0, m, e => ⟨m, e⟩
  | fuel + 1, m, e =>
      if m % 2 = 0 then canonAux fuel (m / 2) (e + 1) else ⟨m, e⟩

/-- Canonical `F64` with value `m * 2 ^ e`. -/
def canon (m e : ℤ) : F64 :=
  if m = 0 then ⟨0, 0⟩ else canonAux 128 m e

/-- Round a positive integer (plus a sticky fraction in `[0,1)`, nonzero
iff `sticky`) to 53 significant bits, nearest, ties to even.  Returns the
rounded mantissa and the number of bits dropped. -/
def rne53 (n : ℕ) (sticky : Bool) : ℕ × ℕ :=
  let L := blen n
  if L ≤ 53 then (n, 0)
  else
    let t := L - 53
    let keep := n / 2 ^ t
    let rem := n % 2 ^ t
    let half := 2 ^ (t - 1)
    if half < rem ∨ (rem = half ∧ (sticky = true ∨ keep % 2 = 1)) then
      (keep + 1, t)
    else (keep, t)

/-- Sign of an integer (zero never reaches the uses below). -/
def sgn (x : ℤ) : ℤ := if x < 0 then -1 else 1

/-- Binary64 multiplication: exact integer product, then round to 53
bits. -/
def fmul (a b : F64) : F64 :=
  if a.man = 0 ∨ b.man = 0 then ⟨0, 0⟩
  else
    let p := a.man * b.man
    let r := rne53 p.natAbs false
    canon (sgn p * (r.1 : ℤ)) (a.exp + b.exp + (r.2 : ℤ))

/-- Binary64 division: scale the dividend by `2 ^ 160` (so the integer
quotient of the mantissas keeps more than 53 significant bits), divide
with remainder, and round to 53 bits with the remainder as sticky bit.
Division by zero never occurs in the uses below (the caller checks). -/
def fdiv (a b : F64) : F64 :=
  if a.man = 0 ∨ b.man = 0 then ⟨0, 0⟩
  else
    let n := a.man.natAbs * 2 ^ 160
    let q := n / b.man.natAbs
    let rmd := n % b.man.natAbs
    let r := rne53 q (rmd != 0)
    canon (sgn (a.man * b.man) * (r.1 : ℤ)) (a.exp - b.exp - 160 + (r.2 : ℤ))

/-- The rational value of an `F64`. -/
def fval (x : F64) : ℚ := (x.man : ℚ) * (2 : ℚ) ^ x.exp

/-- `mnormalize` again, but over the binary64 model: the same source
lines as `mnormalize`, with `1.0 / center` and `matrix[i][j] *= factor`
performed in rounded binary64 arithmetic instead of exact field
arithmetic. -/
def mnormalize64 (m : Mat F64) : Except CGError (Mat F64) :=
  let width := (m.headD []).length
  let height := m.length
  let c := mget m (height / 2) (width / 2)
  if c = 0 then .error .zeroDivisionError
  else
    let factor := fdiv 1 c
    if factor = 1 then .ok m
    else .ok (mforij height width (fun acc i j => fmul (mget acc i j) factor) m)

/-- Rectangularity: `h` rows, each of length `w`. -/
def Rect (m : Mat α) (h w : ℕ) : Prop :=
  m.length = h ∧ ∀ r ∈ m, r.length = w

instance (m : Mat α) (h w : ℕ) : Decidable (Rect m h w) := by
  unfold Rect
  exact inferInstance

/-- Invariant of the row-major in-place loop after the first `c` cells
(in row-major numbering over the `H × W` write window) have been
processed: shape is preserved, processed cells hold their final value
`g i j`, and unprocessed or out-of-window cells still hold the original
value. -/
def loopInv [Zero α] (m : Mat α) (hm wm H W : ℕ) (g : ℕ → ℕ → α)
    (acc : Mat α) (c : ℕ) : Prop :=
  Rect acc hm wm
  ∧ (∀ i j, i < H → j < W →
      mget acc i j = if i * W + j < c then g i j else mget m i j)
  ∧ (∀ i j, H ≤ i ∨ W ≤ j → mget acc i j = mget m i j)

theorem mget_eq [Zero α] (m : Mat α) (i j : ℕ) :
    mget m i j = ((m[i]?.getD [])[j]?).getD 0 := by
  simp [mget, List.getD_eq_getElem?_getD]

theorem rect_row (m : Mat α) (h w i : ℕ) (hrect : Rect m h w) (hi : i < h) :
    (m.getD i []).length = w := by
  obtain ⟨hl, hr⟩ := hrect
  have hlen : i < m.length := by omega
  rw [List.getD_eq_getElem?_getD, List.getElem?_eq_getElem hlen]
  exact hr _ (List.getElem_mem hlen)

theorem mget_mset_self [Zero α] (m : Mat α) (i j : ℕ) (v : α)
    (hi : i < m.length) (hj : j < (m.getD i []).length) :
    mget (mset m i j v) i j = v := by
  rw [mget_eq, mset, List.getElem?_set, if_pos rfl, if_pos hi]
  simp only [Option.getD_some]
  rw [List.getElem?_set, if_pos rfl, if_pos hj]
  rfl

theorem mget_mset_ne [Zero α] (m : Mat α) (i j i' j' : ℕ) (v : α)
    (hne : i ≠ i' ∨ j ≠ j') :
    mget (mset m i j v) i' j' = mget m i' j' := by
  by_cases hii : i = i'
  · subst hii
    have hjj : j ≠ j' := by tauto
    rw [mget_eq, mget_eq, mset, List.getElem?_set, if_pos rfl]
    by_cases hlen : i < m.length
    · rw [if_pos hlen]
      simp only [Option.getD_some]
      rw [List.getElem?_set, if_neg hjj]
      rw [List.getElem?_eq_getElem hlen]
      simp [List.getD_eq_getElem?_getD, List.getElem?_eq_getElem hlen]
    · rw [if_neg hlen]
      have hnone : m[i]? = none := List.getElem?_eq_none (by omega)
      rw [hnone]
  · rw [mget_eq, mget_eq, mset, List.getElem?_set, if_neg hii]

theorem rect_mset (m : Mat α) (h w i j : ℕ) (v : α)
    (hrect : Rect m h w) (hi : i < h) :
    Rect (mset m i j v) h w := by
  obtain ⟨hl, hr⟩ := hrect
  refine ⟨by simp [mset, hl], ?_⟩
  intro r hrr
  rcases List.mem_or_eq_of_mem_set hrr with hmem | rfl
  · exact hr r hmem
  · rw [List.length_set]
    exact rect_row m h w i ⟨hl, hr⟩ hi

theorem getD_all_eq {l : List α} (d : α) (hl : ∀ x ∈ l, x = d) (j : ℕ) :
    l.getD j d = d := by
  rw [List.getD_eq_getElem?_getD]
  cases h : l[j]? with
  | none => rfl
  | some a => simpa using hl a (List.getElem?_mem h)

theorem rect_mbuild [Zero α] (w h : ℕ) : Rect (mbuild w h : Mat α) h w := by
  refine ⟨by simp [mbuild], ?_⟩
  intro r hr
  rw [List.eq_of_mem_replicate hr]
  simp

theorem mget_mbuild [Zero α] (w h i j : ℕ) :
    mget (mbuild w h : Mat α) i j = 0 := by
  unfold mget mbuild
  have hrow : (List.replicate h (List.replicate w (0 : α))).getD i [] = []
      ∨ (List.replicate h (List.replicate w (0 : α))).getD i []
        = List.replicate w (0 : α) := by
    rw [List.getD_eq_getElem?_getD]
    cases hg : (List.replicate h (List.replicate w (0 : α)))[i]? with
    | none => left; rfl
    | some r =>
        right
        simpa using List.eq_of_mem_replicate (List.getElem?_mem hg)
  rcases hrow with hrow | hrow <;> rw [hrow]
  · rfl
  · exact getD_all_eq 0 (fun x hx => List.eq_of_mem_replicate hx) j

theorem foldl_range_inv {β : Type} (P : β → ℕ → Prop) :
    ∀ (n : ℕ) (f : β → ℕ → β) (a : β),
      P a 0 → (∀ b k, k < n → P b k → P (f b k) (k + 1)) →
      P ((List.range n).foldl f a) n := by
  intro n
  induction n with
  | zero => intro f a h0 _; simpa using h0
  | succ n ih =>
      intro f a h0 hstep
      rw [List.range_succ, List.foldl_append]
      simp only [List.foldl_cons, List.foldl_nil]
      exact hstep _ n (Nat.lt_succ_self n)
        (ih f a h0 fun b k hk => hstep b k (hk.trans (Nat.lt_succ_self n)))

theorem cell_inj {W i j i' j' : ℕ} (hj : j < W) (hj' : j' < W)
    (he : i' * W + j' = i * W + j) : i' = i ∧ j' = j := by
  have hW : 0 < W := by omega
  have h1 : (W * i' + j') / W = i' := by
    rw [Nat.mul_add_div hW, Nat.div_eq_of_lt hj', Nat.add_zero]
  have h2 : (W * i + j) / W = i := by
    rw [Nat.mul_add_div hW, Nat.div_eq_of_lt hj, Nat.add_zero]
  rw [Nat.mul_comm i' W, Nat.mul_comm i W] at he
  have hii : i' = i := by rw [← h1, ← h2, he]
  subst hii
  omega

theorem mforij_spec [Zero α] (m : Mat α) (hm wm H W : ℕ) (g : ℕ → ℕ → α)
    (f : Mat α → ℕ → ℕ → α)
    (hrect : Rect m hm wm) (hH : H ≤ hm) (hW : W ≤ wm)
    (hf : ∀ acc i j, i < H → j < W → loopInv m hm wm H W g acc (i * W + j) →
      f acc i j = g i j) :
    Rect (mforij H W f m) hm wm
    ∧ (∀ i j, i < H → j < W → mget (mforij H W f m) i j = g i j)
    ∧ (∀ i j, H ≤ i ∨ W ≤ j → mget (mforij H W f m) i j = mget m i j) := by
  have hstep : ∀ acc i j, i < H → j < W → loopInv m hm wm H W g acc (i * W + j) →
      loopInv m hm wm H W g (mset acc i j (f acc i j)) (i * W + j + 1) := by
    intro acc i j hi hj hacc
    obtain ⟨haccR, haccV, haccU⟩ := hacc
    have hfij : f acc i j = g i j := hf acc i j hi hj ⟨haccR, haccV, haccU⟩
    have hiL : i < acc.length := by rw [haccR.1]; omega
    have hjL : j < (acc.getD i []).length := by
      rw [rect_row acc hm wm i haccR (by omega)]; omega
    refine ⟨rect_mset acc hm wm i j _ haccR (by omega), ?_, ?_⟩
    · intro i' j' hi' hj'
      by_cases he : i' = i ∧ j' = j
      · obtain ⟨rfl, rfl⟩ := he
        rw [mget_mset_self acc i' j' _ hiL hjL, hfij,
          if_pos (Nat.lt_succ_self _)]
      · have hne : i ≠ i' ∨ j ≠ j' := by tauto
        rw [mget_mset_ne acc i j i' j' _ hne, haccV i' j' hi' hj']
        have hne2 : i' * W + j' ≠ i * W + j := fun hc => he (cell_inj hj hj' hc)
        by_cases hlt : i' * W + j' < i * W + j
        · rw [if_pos hlt, if_pos (by omega)]
        · rw [if_neg hlt, if_neg (by omega)]
    · intro i' j' hor
      have hne : i ≠ i' ∨ j ≠ j' := by
        rcases hor with h | h
        · left; omega
        · right; omega
      rw [mget_mset_ne acc i j i' j' _ hne]
      exact haccU i' j' hor
  have hinit : loopInv m hm wm H W g m 0 := by
    refine ⟨hrect, fun i j _ _ => by simp, fun _ _ _ => rfl⟩
  have houter : loopInv m hm wm H W g (mforij H W f m) (H * W) := by
    unfold mforij
    have hmain := foldl_range_inv (fun acc i => loopInv m hm wm H W g acc (i * W)) H
      (fun acc i =>
        (List.range W).foldl (fun acc2 j => mset acc2 i j (f acc2 i j)) acc)
      m (by simpa using hinit) ?_
    · exact hmain
    · intro b k hk hb
      have hinner := foldl_range_inv
        (fun acc j => loopInv m hm wm H W g acc (k * W + j)) W
        (fun acc2 j => mset acc2 k j (f acc2 k j)) b
        (by simpa using hb)
        (fun acc j hjW hacc => hstep acc k j hk hjW hacc)
      have : (k + 1) * W = k * W + W := by ring
      rw [this]
      exact hinner
  obtain ⟨hR, hV, hU⟩ := houter
  refine ⟨hR, ?_, hU⟩
  intro i j hi hj
  rw [hV i j hi hj, if_pos ?_]
  calc i * W + j < i * W + W := by omega
    _ = (i + 1) * W := by ring
    _ ≤ H * W := Nat.mul_le_mul_right W (by omega)

theorem headD_length (m : Mat α) (h w : ℕ) (hrect : Rect m h w) (hh : 0 < h) :
    (m.headD []).length = w := by
  have h0 : m.headD [] = m.getD 0 [] := by cases m <;> simp [List.getD]
  rw [h0]
  exact rect_row m h w 0 hrect hh

theorem mforij_rect (m : Mat α) (hm wm H W : ℕ) (f : Mat α → ℕ → ℕ → α)
    (hrect : Rect m hm wm) (hH : H ≤ hm) :
    Rect (mforij H W f m) hm wm := by
  unfold mforij
  refine foldl_range_inv (fun acc _ => Rect acc hm wm) H _ m hrect ?_
  intro b k hk hb
  refine foldl_range_inv (fun acc _ => Rect acc hm wm) W _ b hb ?_
  intro b' k' _ hb'
  exact rect_mset b' hm wm k k' _ hb' (by omega)

theorem mmirror4_get [Zero α] (m : Mat α) (h w : ℕ)
    (hrect : Rect m h w) (hh : 0 < h) :
    Rect (mmirror4 m) h w
    ∧ ∀ i j, i < h → j < w →
        mget (mmirror4 m) i j = mget m (min i (h - 1 - i)) (min j (w - 1 - j)) := by
  have hhd : (m.headD []).length = w := headD_length m h w hrect hh
  have hml : m.length = h := hrect.1
  unfold mmirror4
  simp only []
  rw [hhd, hml]
  have hspec := mforij_spec m h w h w
    (fun i j => mget m (min i (h - 1 - i)) (min j (w - 1 - j)))
    (fun acc i j => mget acc (min i (h - 1 - i)) (min j (w - 1 - j)))
    hrect le_rfl le_rfl ?_
  · exact ⟨hspec.1, hspec.2.1⟩
  · intro acc i j hi hj hinv
    obtain ⟨hR, hV, hU⟩ := hinv
    have hx : min i (h - 1 - i) < h := by omega
    have hy : min j (w - 1 - j) < w := by omega
    have hxq : min (min i (h - 1 - i)) (h - 1 - min i (h - 1 - i))
        = min i (h - 1 - i) := by omega
    have hyq : min (min j (w - 1 - j)) (w - 1 - min j (w - 1 - j))
        = min j (w - 1 - j) := by omega
    show mget acc (min i (h - 1 - i)) (min j (w - 1 - j))
        = mget m (min i (h - 1 - i)) (min j (w - 1 - j))
    rw [hV _ _ hx hy]
    by_cases hcl : min i (h - 1 - i) * w + min j (w - 1 - j) < i * w + j
    · rw [if_pos hcl]
      simp only [hxq, hyq]
    · rw [if_neg hcl]

theorem mnormalize_ok [Field α] [DecidableEq α] (m : Mat α) (h w : ℕ)
    (hrect : Rect m h w) (hh : 0 < h) (hw : 0 < w)
    (hc : mget m (h / 2) (w / 2) ≠ 0) :
    ∃ m', mnormalize m = .ok m' ∧ Rect m' h w
      ∧ ∀ i j, i < h → j < w →
          mget m' i j = mget m i j * (1 / mget m (h / 2) (w / 2)) := by
  have hhd : (m.headD []).length = w := headD_length m h w hrect hh
  have hml : m.length = h := hrect.1
  unfold mnormalize
  simp only []
  rw [hhd, hml]
  rw [if_neg hc]
  by_cases hf1 : 1 / mget m (h / 2) (w / 2) = 1
  · rw [if_pos hf1]
    exact ⟨m, rfl, hrect, fun i j hi hj => by rw [hf1, mul_one]⟩
  · rw [if_neg hf1]
    have hspec := mforij_spec m h w h w
      (fun i j => mget m i j * (1 / mget m (h / 2) (w / 2)))
      (fun acc i j => mget acc i j * (1 / mget m (h / 2) (w / 2)))
      hrect le_rfl le_rfl ?_
    · exact ⟨_, rfl, hspec.1, hspec.2.1⟩
    · intro acc i j hi hj hinv
      obtain ⟨hR, hV, hU⟩ := hinv
      show mget acc i j * _ = _
      rw [hV i j hi hj, if_neg (by omega)]

theorem mnormalize_ok_rect [Field α] [DecidableEq α] (m m' : Mat α) (h w : ℕ)
    (hrect : Rect m h w) (hok : mnormalize m = .ok m') : Rect m' h w := by
  unfold mnormalize at hok
  simp only [] at hok
  by_cases h1 : mget m (m.length / 2) ((m.headD []).length / 2) = 0
  · rw [if_pos h1] at hok
    exact absurd hok (by simp)
  · rw [if_neg h1] at hok
    by_cases h2 : 1 / mget m (m.length / 2) ((m.headD []).length / 2) = 1
    · rw [if_pos h2] at hok
      obtain rfl : m = m' := by injection hok
      exact hrect
    · rw [if_neg h2] at hok
      have hshape := mforij_rect m h w m.length ((m.headD []).length)
        (fun acc i j => mget acc i j * (1 / mget m (m.length / 2) ((m.headD []).length / 2)))
        hrect (by rw [hrect.1])
      obtain rfl : mforij m.length ((m.headD []).length)
          (fun acc i j => mget acc i j * (1 / mget m (m.length / 2) ((m.headD []).length / 2))) m
          = m' := by injection hok
      exact hshape

theorem gen_box_spec [Zero α] [One α] (w h : ℕ) (factors : String → Option α) :
    Rect (gen_box w h factors) h w
    ∧ ∀ i j, i < h → j < w → mget (gen_box w h factors) i j = 1 := by
  unfold gen_box
  have hspec := mforij_spec (mbuild w h) h w h w (fun _ _ => (1 : α))
    (fun _ _ _ => (1 : α))
    (rect_mbuild w h) le_rfl le_rfl (fun _ _ _ _ _ _ => rfl)
  exact ⟨hspec.1, hspec.2.1⟩

theorem gauss_raw_spec (n : ℕ) (σ : ℝ) (hn : 0 < n) :
    Rect (gauss_raw n σ) n n
    ∧ (∀ i j, i ≤ n / 2 → j ≤ n / 2 →
        mget (gauss_raw n σ) i j
          = 1 / (2 * Real.pi * σ) *
              Real.exp 1 ^ (-(((i : ℝ) - ((n / 2 : ℕ) : ℝ)) * ((i : ℝ) - ((n / 2 : ℕ) : ℝ))
                  + ((j : ℝ) - ((n / 2 : ℕ) : ℝ)) * ((j : ℝ) - ((n / 2 : ℕ) : ℝ)))
                / (2 * σ * σ)))
    ∧ (∀ i j, n / 2 < i ∨ n / 2 < j → mget (gauss_raw n σ) i j = 0) := by
  unfold gauss_raw
  have hH : n / 2 + 1 ≤ n := by omega
  have hspec := mforij_spec (mbuild n n) n n (n / 2 + 1) (n / 2 + 1)
    (fun i j =>
      1 / (2 * Real.pi * σ) *
        Real.exp 1 ^ (-(((i : ℝ) - ((n / 2 : ℕ) : ℝ)) * ((i : ℝ) - ((n / 2 : ℕ) : ℝ))
            + ((j : ℝ) - ((n / 2 : ℕ) : ℝ)) * ((j : ℝ) - ((n / 2 : ℕ) : ℝ)))
          / (2 * σ * σ)))
    (fun _ i j =>
      let diffx : ℝ := (i : ℝ) - ((n / 2 : ℕ) : ℝ)
      let diffy : ℝ := (j : ℝ) - ((n / 2 : ℕ) : ℝ)
      1 / (2 * Real.pi * σ) *
        Real.exp 1 ^ (-(diffx * diffx + diffy * diffy) / (2 * σ * σ)))
    (rect_mbuild n n) hH hH (fun _ _ _ _ _ _ => rfl)
  refine ⟨hspec.1, ?_, ?_⟩
  · intro i j hi hj
    exact hspec.2.1 i j (by omega) (by omega)
  · intro i j hor
    rw [hspec.2.2 i j (by omega), mget_mbuild]

theorem gen_gaussian_ok_inv (n : ℕ) (factors : String → Option ℝ) (M : Mat ℝ)
    (hM : gen_gaussian n n factors = .ok M) :
    ∃ m', mnormalize (gauss_raw n ((factors "sigma").getD 0.84089642)) = .ok m'
      ∧ M = mmirror4 m' := by
  unfold gen_gaussian at hM
  rw [if_neg (show ¬n ≠ n by simp)] at hM
  cases hnorm : mnormalize (gauss_raw n ((factors "sigma").getD 0.84089642)) with
  | error e =>
      rw [show (do
            let result ← mnormalize (gauss_raw n ((factors "sigma").getD 0.84089642))
            return mmirror4 result : Except CGError (Mat ℝ))
          = Except.error e by rw [hnorm]; rfl] at hM
      exact Except.noConfusion hM
  | ok m' =>
      refine ⟨m', rfl, ?_⟩
      rw [show (do
            let result ← mnormalize (gauss_raw n ((factors "sigma").getD 0.84089642))
            return mmirror4 result : Except CGError (Mat ℝ))
          = Except.ok (mmirror4 m') by rw [hnorm]; rfl] at hM
      injection hM with hM
      exact hM.symm

theorem gauss_raw_center (n : ℕ) (σ : ℝ) (hn : 0 < n) :
    mget (gauss_raw n σ) (n / 2) (n / 2) = 1 / (2 * Real.pi * σ) := by
  have hval := (gauss_raw_spec n σ hn).2.1 (n / 2) (n / 2) le_rfl le_rfl
  rw [hval]
  rw [sub_self]
  norm_num

theorem gen_gaussian_ok (n : ℕ) (hn : 0 < n) (factors : String → Option ℝ)
    (hσ : 2 * Real.pi * ((factors "sigma").getD 0.84089642) ≠ 0) :
    ∃ M, gen_gaussian n n factors = .ok M ∧ Rect M n n := by
  have hraw := gauss_raw_spec n ((factors "sigma").getD 0.84089642) hn
  have hcne : mget (gauss_raw n ((factors "sigma").getD 0.84089642)) (n / 2) (n / 2) ≠ 0 := by
    rw [gauss_raw_center n _ hn]
    exact one_div_ne_zero hσ
  obtain ⟨m', hok, hrect', _⟩ :=
    mnormalize_ok (gauss_raw n ((factors "sigma").getD 0.84089642)) n n hraw.1 hn hn hcne
  refine ⟨mmirror4 m', ?_, (mmirror4_get m' n n hrect' hn).1⟩
  unfold gen_gaussian
  rw [if_neg (show ¬n ≠ n by simp)]
  show (do
      let result ← mnormalize (gauss_raw n ((factors "sigma").getD 0.84089642))
      return mmirror4 result : Except CGError (Mat ℝ)) = _
  rw [hok]
  rfl

theorem flatMap_congr_mem {γ β : Type} (l : List γ) (f g : γ → List β)
    (h : ∀ x ∈ l, f x = g x) : l.flatMap f = l.flatMap g := by
  induction l with
  | nil => rfl
  | cons a t ih =>
      rw [List.flatMap_cons, List.flatMap_cons, h a (List.mem_cons_self a t),
        ih fun x hx => h x (List.mem_cons_of_mem a hx)]

theorem flatMap_singleton_getD {β : Type} (F : α → β) (d : α) (l : List α) :
    (List.range l.length).flatMap (fun j => [F (l.getD j d)]) = l.map F := by
  induction l with
  | nil => rfl
  | cons a t ih =>
      rw [List.length_cons, List.range_succ_eq_map, List.flatMap_cons,
        List.flatMap_map]
      simp only [Nat.succ_eq_add_one, List.getD_cons_succ, List.getD_cons_zero]
      rw [ih]
      rfl

theorem flatMap_skip_getD {β : Type} (F : α → β) (d : α) :
    ∀ (l : List α) (k : ℕ), k < l.length →
      (List.range l.length).flatMap
          (fun j => if k = j then [] else [F (l.getD j d)])
        = (l.eraseIdx k).map F := by
  intro l
  induction l with
  | nil => intro k hk; simp at hk
  | cons a t ih =>
      intro k hk
      rw [List.length_cons, List.range_succ_eq_map, List.flatMap_cons,
        List.flatMap_map]
      cases k with
      | zero =>
          simp only [Nat.succ_eq_add_one, List.getD_cons_succ,
            List.getD_cons_zero,
            show ∀ j : ℕ, ((0 : ℕ) = j + 1) = False from
              fun j => eq_false (by omega),
            ite_false, ite_true, List.nil_append]
          rw [flatMap_singleton_getD, List.eraseIdx_cons_zero]
      | succ k' =>
          simp only [Nat.succ_eq_add_one, add_left_inj, List.getD_cons_succ,
            List.getD_cons_zero]
          rw [if_neg (by omega : ¬(k' + 1 = 0))]
          rw [ih k' (by simp only [List.length_cons] at hk; omega),
            List.eraseIdx_cons_succ, List.map_cons]
          rfl

theorem flatMap_rows_map {β : Type} (F : α → β) :
    ∀ (m : Mat α) (h : ℕ), m.length = h →
      (List.range h).flatMap (fun i => (m.getD i []).map F)
        = m.flatten.map F := by
  intro m
  induction m with
  | nil => intro h hlen; subst hlen; rfl
  | cons r t ih =>
      intro h hlen
      subst hlen
      rw [List.length_cons, List.range_succ_eq_map, List.flatMap_cons,
        List.flatMap_map]
      simp only [Nat.succ_eq_add_one, List.getD_cons_succ, List.getD_cons_zero]
      rw [ih t.length rfl, List.flatten_cons, List.map_append]

theorem flatMap_rows_skip {β : Type} (F : α → β) (w c : ℕ) (hc : c < w) :
    ∀ (m : Mat α) (h k : ℕ), m.length = h → k < h →
      (∀ r ∈ m, r.length = w) →
      (List.range h).flatMap
          (fun i => if k = i then ((m.getD i []).eraseIdx c).map F
            else (m.getD i []).map F)
        = (m.flatten.eraseIdx (k * w + c)).map F := by
  intro m
  induction m with
  | nil => intro h k hlen hk _; subst hlen; simp at hk
  | cons r t ih =>
      intro h k hlen hk hrows
      subst hlen
      have hrlen : r.length = w := hrows r (List.mem_cons_self r t)
      rw [List.length_cons, List.range_succ_eq_map, List.flatMap_cons,
        List.flatMap_map]
      cases k with
      | zero =>
          simp only [Nat.succ_eq_add_one, List.getD_cons_succ,
            List.getD_cons_zero,
            show ∀ i : ℕ, ((0 : ℕ) = i + 1) = False from
              fun i => eq_false (by omega),
            ite_false, ite_true]
          rw [flatMap_rows_map F t t.length rfl]
          rw [List.flatten_cons, Nat.zero_mul, Nat.zero_add,
            List.eraseIdx_append_of_lt_length (by omega), List.map_append]
      | succ k' =>
          simp only [Nat.succ_eq_add_one, add_left_inj, List.getD_cons_succ,
            List.getD_cons_zero]
          rw [if_neg (by omega : ¬(k' + 1 = 0))]
          rw [ih t.length k' rfl (by simp only [List.length_cons] at hk; omega)
            (fun r hr => hrows r (List.mem_cons_of_mem _ hr))]
          rw [List.flatten_cons]
          have hlew : r.length ≤ (k' + 1) * w + c := by
            have hble : w ≤ (k' + 1) * w := Nat.le_mul_of_pos_left w k'.succ_pos
            omega
          rw [List.eraseIdx_append_of_length_le hlew, List.map_append]
          have hidx : (k' + 1) * w + c - r.length = k' * w + c := by
            have hmul : (k' + 1) * w = k' * w + w := by ring
            omega
          rw [hidx]

theorem flatten_length_rect (m : Mat α) (h w : ℕ) (hrect : Rect m h w) :
    m.flatten.length = h * w := by
  rw [List.length_flatten]
  have hmap : List.map List.length m = List.replicate h w := by
    have hlen : (List.map List.length m).length = h := by simp [hrect.1]
    rw [← hlen]
    refine List.eq_replicate_of_mem ?_
    intro x hx
    obtain ⟨r, hr, rfl⟩ := List.mem_map.mp hx
    exact hrect.2 r hr
  rw [hmap, List.sum_replicate, smul_eq_mul]

theorem mdumpcompton_eq [Zero α] (fmt : α → String) (m : Mat α) (h w : ℕ)
    (hrect : Rect m h w) (hh : 0 < h) (hw : 0 < w) :
    mdumpcompton fmt m
      = (toString w ++ "," ++ toString h ++ ",")
        :: ((m.flatten.eraseIdx (h / 2 * w + w / 2)).map fun x => fmt x ++ ",")
        ++ ["\n"] := by
  unfold mdumpcompton
  simp only []
  rw [headD_length m h w hrect hh, hrect.1]
  have hX : ((List.range h).flatMap fun i =>
        (List.range w).flatMap fun j =>
          if h / 2 = i ∧ w / 2 = j then [] else [fmt (mget m i j) ++ ","])
      = (m.flatten.eraseIdx (h / 2 * w + w / 2)).map fun x => fmt x ++ "," := by
    have hinner : ∀ i, i < h →
        ((List.range w).flatMap fun j =>
          if h / 2 = i ∧ w / 2 = j then [] else [fmt (mget m i j) ++ ","])
        = if h / 2 = i then
            ((m.getD i []).eraseIdx (w / 2)).map fun x => fmt x ++ ","
          else (m.getD i []).map fun x => fmt x ++ "," := by
      intro i hiw
      have hrl : (m.getD i []).length = w := rect_row m h w i hrect hiw
      by_cases hih : h / 2 = i
      · rw [if_pos hih]
        have hcond : ∀ j : ℕ, (h / 2 = i ∧ w / 2 = j) = (w / 2 = j) :=
          fun j => propext ⟨fun hx => hx.2, fun hx => ⟨hih, hx⟩⟩
        simp only [hcond]
        rw [← hrl]
        exact flatMap_skip_getD (fun x => fmt x ++ ",") 0 (m.getD i [])
          ((m.getD i []).length / 2) (by omega)
      · rw [if_neg hih]
        have hcond : ∀ j : ℕ, (h / 2 = i ∧ w / 2 = j) = False :=
          fun j => eq_false fun hx => hih hx.1
        simp only [hcond, ite_false]
        rw [← hrl]
        exact flatMap_singleton_getD (fun x => fmt x ++ ",") 0 (m.getD i [])
    have houter := flatMap_rows_skip (fun x => fmt x ++ ",") w (w / 2)
      (by omega) m h (h / 2) hrect.1 (by omega) hrect.2
    rw [← houter]
    exact flatMap_congr_mem _ _ _ fun i hi => hinner i (List.mem_range.mp hi)
  rw [hX]

theorem readfactors_loop_ok (pf : String → Option α) :
    ∀ (lst : List String) (d : String → Option α),
      (∀ s ∈ lst, ¬ factorBad pf s) →
      _args_readfactors_loop pf d lst
        = .ok fun k =>
            match lastAssign pf lst k with
            | some v => some v
            | none => d k := by
  intro lst
  induction lst with
  | nil => intro d _; rfl
  | cons s t ih =>
      intro d hgood
      have hs := hgood s (List.mem_cons_self s t)
      unfold factorBad at hs
      push_neg at hs
      obtain ⟨hk, hv, hpf⟩ := hs
      have hsome : ∃ v, pf (pypartition s).2 = some v := by
        cases hx : pf (pypartition s).2 with
        | none => exact absurd (by rw [hx]; rfl) hpf
        | some v => exact ⟨v, rfl⟩
      obtain ⟨v, hv2⟩ := hsome
      simp only [_args_readfactors_loop]
      rw [if_neg hk, if_neg hv, hv2]
      show _args_readfactors_loop pf
          (fun k => if k = (pypartition s).1 then some v else d k) t = _
      rw [ih _ fun x hx => hgood x (List.mem_cons_of_mem s hx)]
      congr 1
      funext k
      cases hl : lastAssign pf t k with
      | some vv => simp [lastAssign, hl]
      | none =>
          simp only [lastAssign, hl]
          by_cases hks : k = (pypartition s).1
          · rw [if_pos hks, if_pos hks.symm, hv2]
          · rw [if_neg hks, if_neg fun hx => hks hx.symm]

theorem readfactors_loop_err (pf : String → Option α) :
    ∀ (lst : List String) (d : String → Option α) (s : String),
      s ∈ lst → factorBad pf s →
      ∃ e, _args_readfactors_loop pf d lst = .error e := by
  intro lst
  induction lst with
  | nil => intro d s hs _; simp at hs
  | cons a t ih =>
      intro d s hs hbad
      simp only [_args_readfactors_loop]
      by_cases h1 : (pypartition a).1 = ""
      · exact ⟨_, by rw [if_pos h1]⟩
      · rw [if_neg h1]
        by_cases h2 : (pypartition a).2 = ""
        · exact ⟨_, by rw [if_pos h2]⟩
        · rw [if_neg h2]
          cases hpa : pf (pypartition a).2 with
          | none => exact ⟨.valueError, rfl⟩
          | some v =>
              have hs' : s ∈ t := by
                rcases List.mem_cons.mp hs with rfl | hmem
                · exfalso
                  unfold factorBad at hbad
                  rcases hbad with hx | hx | hx
                  · exact h1 hx
                  · exact h2 hx
                  · rw [hpa] at hx; exact absurd hx (by simp)
                · exact hmem
              exact ih _ s hs' hbad

theorem match_option_id (o : Option α) :
    (match o with
      | some v => some v
      | none => none) = o := by
  cases o <;> rfl

theorem readfactors_ok_iff (pf : String → Option α) (lst : List String) :
    (∃ d, _args_readfactors pf lst = .ok d) ↔ ∀ s ∈ lst, ¬ factorBad pf s := by
  constructor
  · rintro ⟨d, hd⟩ s hs hbad
    obtain ⟨e, he⟩ := readfactors_loop_err pf lst (fun _ => none) s hs hbad
    rw [_args_readfactors, he] at hd
    exact Except.noConfusion hd
  · intro hgood
    exact ⟨_, readfactors_loop_ok pf lst (fun _ => none) hgood⟩

theorem readfactors_ok_val (pf : String → Option α) (lst : List String)
    (hgood : ∀ s ∈ lst, ¬ factorBad pf s) :
    _args_readfactors pf lst = .ok (lastAssign pf lst) := by
  rw [_args_readfactors, readfactors_loop_ok pf lst (fun _ => none) hgood]
  congr 1
  funext k
  exact match_option_id (lastAssign pf lst k)


theorem _main_eval_pos (ty : String) (w : ℤ) (hw : 0 < w) (factor : List String)
    (pf : String → Option ℝ) (dump : Bool) :
    _main ty w (some 0) factor pf dump
      = (_args_readfactors pf factor).bind fun factors =>
          ((if ty = "gaussian" then gen_gaussian
            else if ty = "box" then fun w h f => .ok (gen_box w h f)
            else _gen_invalid) w.toNat w.toNat factors).bind
            fun matrix => .ok (dump, matrix) := by
  have hred : _main ty w (some 0) factor pf dump
      = if ¬(w > 0 ∧ w > 0) then
          Except.error (CGError.CGBadArg "Invalid width/height.")
        else
          (_args_readfactors pf factor).bind fun factors =>
            ((if ty = "gaussian" then gen_gaussian
              else if ty = "box" then fun w h f => .ok (gen_box w h f)
              else _gen_invalid) w.toNat w.toNat factors).bind
              fun matrix => .ok (dump, matrix) := rfl
  rw [hred, if_neg (not_not_intro ⟨hw, hw⟩)]

theorem _main_eval_pos_nofactor (ty : String) (w : ℤ) (hw : 0 < w)
    (pf : String → Option ℝ) (dump : Bool) :
    _main ty w (some 0) [] pf dump
      = ((if ty = "gaussian" then gen_gaussian
          else if ty = "box" then fun w h f => .ok (gen_box w h f)
          else _gen_invalid) w.toNat w.toNat (fun _ => none)).bind
          fun matrix => .ok (dump, matrix) := by
  rw [_main_eval_pos ty w hw [] pf dump]
  rfl

/-- C8: for every pair of positive dimensions with `width != height`,
requesting a Gaussian kernel fails with the "uneven kernel" `CGBadArg`
error; the result is exactly that error, so no matrix (partial or
otherwise) is produced. -/
theorem C8_gaussian_rejects_nonsquare (w h : ℕ) (hw : 0 < w) (hh : 0 < h)
    (hne : w ≠ h) (factors : String → Option ℝ) :
    gen_gaussian w h factors
      = .error (.CGBadArg "Cannot build an uneven Gaussian blur kernel.") := by
  unfold gen_gaussian
  rw [if_pos hne]

theorem C8_witness :
    gen_gaussian 5 3 (fun _ => none)
      = .error (.CGBadArg "Cannot build an uneven Gaussian blur kernel.") :=
  C8_gaussian_rejects_nonsquare 5 3 (by norm_num) (by norm_num) (by norm_num)
    (fun _ => none)

/-- C9: for every pair of positive dimensions `(w, h)` and every factor
set, the box generator returns the `h × w` matrix with every cell equal
to `1.0`, and applying normalize to that matrix returns it unchanged
(`normalize(box) == box`). -/
theorem C9_box_all_ones_normalize_id {α : Type} [Field α] [DecidableEq α]
    (w h : ℕ) (hw : 0 < w) (hh : 0 < h) (factors : String → Option α) :
    (∀ i j, i < h → j < w → mget (gen_box w h factors) i j = 1)
    ∧ mnormalize (gen_box w h factors) = .ok (gen_box w h factors) := by
  obtain ⟨hrect, hval⟩ := gen_box_spec w h factors
  refine ⟨hval, ?_⟩
  unfold mnormalize
  simp only []
  rw [headD_length _ h w hrect hh, hrect.1]
  rw [hval (h / 2) (w / 2) (by omega) (by omega)]
  rw [if_neg one_ne_zero]
  rw [if_pos (by norm_num)]

theorem C9_witness :
    (∀ i j, i < 1 → j < 1 →
      mget (gen_box 1 1 (fun _ => (none : Option ℚ))) i j = 1)
    ∧ mnormalize (gen_box 1 1 (fun _ => (none : Option ℚ)))
        = .ok (gen_box 1 1 (fun _ => (none : Option ℚ))) :=
  C9_box_all_ones_normalize_id 1 1 (by norm_num) (by norm_num)
    (fun _ => (none : Option ℚ))

/-- C4: for every rectangular `h × w` matrix `m` (nonempty), `mmirror4`
returns a matrix in which every cell `(i, j)` equals the value the input
matrix held at `(min i (h-1-i), min j (w-1-j))` before the call — even
though the loop mutates in place over the full grid, every copied value
comes from the original top-left-quadrant contents, never from a cell
already overwritten during the same pass. -/
theorem C4_mmirror4_from_original_quadrant [Zero α] (m : Mat α) (h w : ℕ)
    (hrect : Rect m h w) (hh : 1 ≤ h) :
    ∀ i j, i < h → j < w →
      mget (mmirror4 m) i j = mget m (min i (h - 1 - i)) (min j (w - 1 - j)) :=
  (mmirror4_get m h w hrect hh).2

theorem C4_witness :
    Rect [[(1 : ℚ), 2, 3], [4, 5, 6], [7, 8, 9]] 3 3
    ∧ mget (mmirror4 [[(1 : ℚ), 2, 3], [4, 5, 6], [7, 8, 9]]) 2 2
        = mget [[(1 : ℚ), 2, 3], [4, 5, 6], [7, 8, 9]]
            (min 2 (3 - 1 - 2)) (min 2 (3 - 1 - 2)) :=
  ⟨by decide,
    C4_mmirror4_from_original_quadrant [[(1 : ℚ), 2, 3], [4, 5, 6], [7, 8, 9]]
      3 3 (by decide) (by decide) 2 2 (by decide) (by decide)⟩

/-- C1: for every matrix of width `w` and height `h` (`w, h ≥ 1`), the
compact compositor serializer emits the header "w,h,", then the cells in
row-major order, each formatted (the `".6f"` formatter is the abstracted
`fmt`) and followed by a comma, skipping exactly the one cell at
position `(h//2, w//2)` (no value and no comma for it), so that exactly
`w*h − 1` formatted cell tokens are emitted, then a final newline. -/
theorem C1_mdumpcompton_skips_center [Zero α] (fmt : α → String) (m : Mat α)
    (h w : ℕ) (hrect : Rect m h w) (hh : 1 ≤ h) (hw : 1 ≤ w) :
    mdumpcompton fmt m
      = (toString w ++ "," ++ toString h ++ ",")
        :: ((m.flatten.eraseIdx (h / 2 * w + w / 2)).map fun x => fmt x ++ ",")
        ++ ["\n"]
    ∧ (m.flatten.eraseIdx (h / 2 * w + w / 2)).length = w * h - 1 := by
  refine ⟨mdumpcompton_eq fmt m h w hrect hh hw, ?_⟩
  rw [List.length_eraseIdx]
  rw [flatten_length_rect m h w hrect]
  have hlt : h / 2 * w + w / 2 < h * w := by
    have h1 : h / 2 * w + w / 2 < h / 2 * w + w := by omega
    have h2 : h / 2 * w + w = (h / 2 + 1) * w := by ring
    have h3 : (h / 2 + 1) * w ≤ h * w := Nat.mul_le_mul_right w (by omega)
    omega
  rw [if_pos hlt, Nat.mul_comm h w]

theorem C1_witness :
    Rect [[(1 : ℚ), 2], [3, 4], [5, 6]] 3 2
    ∧ (mdumpcompton (fun x : ℚ => toString x) [[(1 : ℚ), 2], [3, 4], [5, 6]]
        = (toString 2 ++ "," ++ toString 3 ++ ",")
          :: ((([[(1 : ℚ), 2], [3, 4], [5, 6]] : Mat ℚ).flatten.eraseIdx
                (3 / 2 * 2 + 2 / 2)).map fun x => toString x ++ ",")
          ++ ["\n"]
      ∧ (([[(1 : ℚ), 2], [3, 4], [5, 6]] : Mat ℚ).flatten.eraseIdx
            (3 / 2 * 2 + 2 / 2)).length = 2 * 3 - 1) :=
  ⟨by decide,
    C1_mdumpcompton_skips_center (fun x : ℚ => toString x)
      [[(1 : ℚ), 2], [3, 4], [5, 6]] 3 2 (by decide) (by decide) (by decide)⟩

/-- C3: for every odd square size `n` and every factor set, the Gaussian
synthesis loop stores, at every cell `(i, j)` with `i, j ≤ c = n // 2`,
the raw weight `(1 / (2·π·σ)) · exp(−((i−c)² + (j−c)²) / (2·σ²))`,
where `σ` is read from the factors under key "sigma" with default
`0.84089642`, and leaves all cells outside that top-left quadrant at
`0.0` at this stage (before normalization and mirroring). -/
theorem C3_gaussian_quadrant_weights (n : ℕ) (hn : Odd n)
    (factors : String → Option ℝ) :
    (∀ i j, i ≤ n / 2 → j ≤ n / 2 →
      mget (gauss_raw n ((factors "sigma").getD 0.84089642)) i j
        = 1 / (2 * Real.pi * ((factors "sigma").getD 0.84089642)) *
            Real.exp (-(((i : ℝ) - ((n / 2 : ℕ) : ℝ)) ^ 2
                + ((j : ℝ) - ((n / 2 : ℕ) : ℝ)) ^ 2)
              / (2 * ((factors "sigma").getD 0.84089642) ^ 2)))
    ∧ (∀ i j, i < n → j < n → n / 2 < i ∨ n / 2 < j →
        mget (gauss_raw n ((factors "sigma").getD 0.84089642)) i j = 0) := by
  have hn0 : 0 < n := by rcases hn with ⟨k, hk⟩; omega
  obtain ⟨hrect, hval, hzero⟩ :=
    gauss_raw_spec n ((factors "sigma").getD 0.84089642) hn0
  refine ⟨?_, fun i j _ _ hor => hzero i j hor⟩
  intro i j hi hj
  rw [hval i j hi hj, Real.exp_one_rpow]
  congr 1
  congr 1
  ring

theorem C3_witness :
    Odd 3
    ∧ mget (gauss_raw 3 (0.84089642 : ℝ)) 0 1
        = 1 / (2 * Real.pi * (0.84089642 : ℝ)) *
            Real.exp (-((((0 : ℕ) : ℝ) - ((3 / 2 : ℕ) : ℝ)) ^ 2
                + (((1 : ℕ) : ℝ) - ((3 / 2 : ℕ) : ℝ)) ^ 2)
              / (2 * (0.84089642 : ℝ) ^ 2))
    ∧ mget (gauss_raw 3 (0.84089642 : ℝ)) 2 0 = 0 := by
  have hodd : Odd 3 := ⟨1, by norm_num⟩
  have hmain := C3_gaussian_quadrant_weights 3 hodd (fun _ => none)
  exact ⟨hodd, hmain.1 0 1 (by norm_num) (by norm_num),
    hmain.2 2 0 (by norm_num) (by norm_num) (Or.inl (by norm_num))⟩

/-- C5: for every odd size `n` and every factor set for which the
Gaussian generator succeeds, the returned `n × n` matrix is exactly
symmetric under horizontal flip, vertical flip and 180° rotation:
`m[i][j] = m[n−1−i][j] = m[i][n−1−j] = m[n−1−i][n−1−j]`, with exact
(bit-identical in the code, term-identical here) equality of mirrored
pairs. -/
theorem C5_gaussian_symmetric (n : ℕ) (hn : Odd n)
    (factors : String → Option ℝ) (M : Mat ℝ)
    (hM : gen_gaussian n n factors = .ok M) :
    ∀ i j, i < n → j < n →
      mget M i j = mget M (n - 1 - i) j
      ∧ mget M i j = mget M i (n - 1 - j)
      ∧ mget M i j = mget M (n - 1 - i) (n - 1 - j) := by
  have hn0 : 0 < n := by rcases hn with ⟨k, hk⟩; omega
  obtain ⟨m', hnorm, hMm⟩ := gen_gaussian_ok_inv n factors M hM
  subst hMm
  have hrectRaw := (gauss_raw_spec n ((factors "sigma").getD 0.84089642) hn0).1
  have hrect' : Rect m' n n := mnormalize_ok_rect _ m' n n hrectRaw hnorm
  obtain ⟨hrectM, hmir⟩ := mmirror4_get m' n n hrect' hn0
  intro i j hi hj
  have e1 := hmir i j hi hj
  have e2 := hmir (n - 1 - i) j (by omega) hj
  have e3 := hmir i (n - 1 - j) hi (by omega)
  have e4 := hmir (n - 1 - i) (n - 1 - j) (by omega) (by omega)
  have hmi : min (n - 1 - i) (n - 1 - (n - 1 - i)) = min i (n - 1 - i) := by
    omega
  have hmj : min (n - 1 - j) (n - 1 - (n - 1 - j)) = min j (n - 1 - j) := by
    omega
  refine ⟨?_, ?_, ?_⟩
  · rw [e1, e2, hmi]
  · rw [e1, e3, hmj]
  · rw [e1, e4, hmi, hmj]

theorem C5_witness :
    Odd 3
    ∧ ∃ M, gen_gaussian 3 3 (fun _ => none) = .ok M
      ∧ mget M 0 0 = mget M 2 0 ∧ mget M 0 0 = mget M 0 2
      ∧ mget M 0 0 = mget M 2 2 := by
  have hodd : Odd 3 := ⟨1, by norm_num⟩
  have hσ : 2 * Real.pi *
      (((fun _ : String => (none : Option ℝ)) "sigma").getD 0.84089642) ≠ 0 := by
    show 2 * Real.pi * (0.84089642 : ℝ) ≠ 0
    have hpos : (0 : ℝ) < 2 * Real.pi * 0.84089642 := by positivity
    exact ne_of_gt hpos
  obtain ⟨M, hok, hrect⟩ := gen_gaussian_ok 3 (by norm_num) (fun _ => none) hσ
  have hsym := C5_gaussian_symmetric 3 hodd (fun _ => none) M hok 0 0
    (by norm_num) (by norm_num)
  exact ⟨hodd, M, hok, hsym.1, hsym.2.1, hsym.2.2⟩

/-- C7: factor parsing fails for exactly the `-f` arguments that are
missing their `'='` or missing a value (both leave the partition's third
component empty), missing a key, or whose value does not parse as a
floating-point number (`factorBad`); every well-formed `key=value` list
yields the corresponding mapping (each key bound to the value of its
last occurrence) with no error. -/
theorem C7_readfactors_errors (pf : String → Option α) (lst : List String) :
    ((∃ d, _args_readfactors pf lst = .ok d) ↔ ∀ s ∈ lst, ¬ factorBad pf s)
    ∧ ((∀ s ∈ lst, ¬ factorBad pf s) →
        _args_readfactors pf lst = .ok (lastAssign pf lst)) :=
  ⟨readfactors_ok_iff pf lst, readfactors_ok_val pf lst⟩

theorem C7_witness :
    ((∃ d, _args_readfactors (fun v => if v = "x" then some (1 : ℚ) else none)
          ["sigma=x"] = .ok d)
      ↔ ∀ s ∈ ["sigma=x"],
          ¬ factorBad (fun v => if v = "x" then some (1 : ℚ) else none) s)
    ∧ _args_readfactors (fun v => if v = "x" then some (1 : ℚ) else none)
        ["sigma=x"]
        = .ok (lastAssign (fun v => if v = "x" then some (1 : ℚ) else none)
            ["sigma=x"]) := by
  have hmain := C7_readfactors_errors
    (fun v => if v = "x" then some (1 : ℚ) else none) ["sigma=x"]
  exact ⟨hmain.1, hmain.2 (by decide)⟩

/-- C2 (amended): in exact arithmetic (any field), for every rectangular
matrix whose center cell is nonzero, `mnormalize` succeeds and the
center cell of the result equals exactly `1`; and whenever the computed
factor `1 / center` equals `1`, the matrix is returned with every cell
unchanged.  (Under the script's binary64 floating-point arithmetic the
center need not come out exactly `1.0`; see the counterexample.) -/
theorem C2_normalize_center_exact {α : Type} [Field α] [DecidableEq α]
    (m : Mat α) (h w : ℕ) (hrect : Rect m h w) (hh : 0 < h) (hw : 0 < w)
    (hc : mget m (h / 2) (w / 2) ≠ 0) :
    (∃ m', mnormalize m = .ok m' ∧ mget m' (h / 2) (w / 2) = 1)
    ∧ (1 / mget m (h / 2) (w / 2) = 1 → mnormalize m = .ok m) := by
  constructor
  · obtain ⟨m', hok, hrect', hval⟩ := mnormalize_ok m h w hrect hh hw hc
    refine ⟨m', hok, ?_⟩
    rw [hval (h / 2) (w / 2) (by omega) (by omega)]
    rw [mul_one_div, div_self hc]
  · intro hf
    unfold mnormalize
    simp only []
    rw [headD_length m h w hrect hh, hrect.1]
    rw [if_neg hc, if_pos hf]

theorem C2_witness :
    Rect [[(2 : ℚ)]] 1 1 ∧ mget [[(2 : ℚ)]] (1 / 2) (1 / 2) ≠ 0
    ∧ ((∃ m', mnormalize [[(2 : ℚ)]] = .ok m'
          ∧ mget m' (1 / 2) (1 / 2) = 1)
      ∧ (1 / mget [[(2 : ℚ)]] (1 / 2) (1 / 2) = 1 →
          mnormalize [[(2 : ℚ)]] = .ok [[(2 : ℚ)]])) :=
  ⟨by decide, by decide,
    C2_normalize_center_exact [[(2 : ℚ)]] 1 1 (by decide) (by decide)
      (by decide) (by decide)⟩

set_option maxRecDepth 100000 in
/-- C2 counterexample: under the script's binary64 arithmetic, the
matrix `[[49.0]]` has nonzero center, yet after `mnormalize` the center
is `49.0 * (1.0 / 49.0) = 0.9999999999999999 = (2^53 − 1) / 2^53`, which
is not exactly `1.0`. -/
theorem C2_counterexample :
    mnormalize64 [[({ man := 49, exp := 0 } : F64)]]
        = .ok [[{ man := 9007199254740991, exp := -53 }]]
    ∧ ({ man := 9007199254740991, exp := -53 } : F64) ≠ 1
    ∧ fval { man := 9007199254740991, exp := -53 } ≠ 1
    ∧ ({ man := 49, exp := 0 } : F64) ≠ 0
    ∧ fval { man := 49, exp := 0 } = 49 ∧ fval 1 = 1 := by
  refine ⟨rfl, by decide, ?_, by decide, ?_, ?_⟩
  · show (9007199254740991 : ℚ) * (2 : ℚ) ^ (-53 : ℤ) ≠ 1
    rw [zpow_neg]
    norm_num
  · show (49 : ℚ) * (2 : ℚ) ^ (0 : ℤ) = 49
    norm_num
  · show (1 : ℚ) * (2 : ℚ) ^ (0 : ℤ) = 1
    norm_num

/-- C6 (amended): the dimension check rejects an invocation — with the
exact error `CGBadArg "Invalid width/height."`, independently of the
kernel type, the factor arguments and the dump flag, i.e. before factor
parsing or any matrix construction — when the requested width is `≤ 0`
or an explicitly supplied height is negative.  An explicitly supplied
height of `0` is falsy in Python and is replaced by the width, so it
does not itself trigger the error (see the counterexample). -/
theorem C6_dimension_validation (ty : String) (width : ℤ)
    (heightArg : Option ℤ) (factor : List String) (pf : String → Option ℝ)
    (dump : Bool)
    (hbad : width ≤ 0 ∨ ∃ hh, heightArg = some hh ∧ hh < 0) :
    _main ty width heightArg factor pf dump
      = .error (.CGBadArg "Invalid width/height.") := by
  rcases hbad with hw | ⟨hh, rfl, hneg⟩
  · unfold _main
    simp only []
    split
    · rfl
    · rename_i hcond
      exact absurd (not_not.mp hcond).1 (by omega)
  · unfold _main
    simp only []
    split
    · rename_i heq0
      exact absurd heq0 (by omega)
    · rename_i heq
      split
      · rfl
      · rename_i hcond
        have hpos := not_not.mp hcond
        omega

theorem C6_witness :
    _main "box" (-1) none [] (fun _ => none) false
      = .error (.CGBadArg "Invalid width/height.") :=
  C6_dimension_validation "box" (-1) none [] (fun _ => none) false
    (Or.inl (by norm_num))

/-- C6 counterexample: the invocation `box 1` with height explicitly
supplied as `0` — a height `≤ 0` — does not fail with the
"Invalid width/height." error: `if not height` treats `0` like an
omitted height, replaces it by the width, and a `1 × 1` box kernel is
produced instead. -/
theorem C6_counterexample :
    _main "box" 1 (some 0) [] (fun _ => none) false
      ≠ .error (.CGBadArg "Invalid width/height.") := by
  have hok : _main "box" 1 (some 0) [] (fun _ => none) false
      = .ok (false, gen_box 1 1 (fun _ => none)) := by
    rw [_main_eval_pos_nofactor "box" 1 (by norm_num) (fun _ => none) false]
    rfl
  rw [hok]
  simp

/-- C10: for every positive width, an invocation that explicitly
supplies height `0` behaves exactly like one that omits the height —
the results agree for every kernel type, factor list, float parser and
dump flag — and for the two recognized kernel types with no factor
arguments no error is raised and a `width × width` kernel is
produced. -/
theorem C10_height_zero_like_omitted (w : ℤ) (hw : 0 < w) :
    (∀ ty factor pf dump,
      _main ty w (some 0) factor pf dump = _main ty w none factor pf dump)
    ∧ (∀ pf dump ty, ty = "box" ∨ ty = "gaussian" →
        ∃ M, _main ty w (some 0) [] pf dump = .ok (dump, M)
          ∧ M.length = w.toNat ∧ ∀ r ∈ M, r.length = w.toNat) := by
  constructor
  · intro ty factor pf dump
    rfl
  · intro pf dump ty hty
    have hwn : 0 < w.toNat := by omega
    rcases hty with rfl | rfl
    · refine ⟨gen_box w.toNat w.toNat (fun _ => none), ?_,
        (gen_box_spec w.toNat w.toNat (fun _ => none)).1.1,
        (gen_box_spec w.toNat w.toNat (fun _ => none)).1.2⟩
      rw [_main_eval_pos_nofactor "box" w hw pf dump]
      rfl
    · have hσ : 2 * Real.pi *
          (((fun _ : String => (none : Option ℝ)) "sigma").getD 0.84089642)
            ≠ 0 := by
        show 2 * Real.pi * (0.84089642 : ℝ) ≠ 0
        have hpos : (0 : ℝ) < 2 * Real.pi * 0.84089642 := by positivity
        exact ne_of_gt hpos
      obtain ⟨M, hok, hrect⟩ := gen_gaussian_ok w.toNat hwn (fun _ => none) hσ
      refine ⟨M, ?_, hrect.1, hrect.2⟩
      rw [_main_eval_pos_nofactor "gaussian" w hw pf dump]
      rw [if_pos rfl]
      rw [hok]
      rfl

theorem C10_witness :
    (∀ ty factor pf dump,
      _main ty 7 (some 0) factor pf dump = _main ty 7 none factor pf dump)
    ∧ (∀ pf dump ty, ty = "box" ∨ ty = "gaussian" →
        ∃ M, _main ty 7 (some 0) [] pf dump = .ok (dump, M)
          ∧ M.length = (7 : ℤ).toNat ∧ ∀ r ∈ M, r.length = (7 : ℤ).toNat) :=
  C10_height_zero_like_omitted 7 (by norm_num)

end Convgen
